import Mathlib

/-!
Shallow embedding of src/YandexCLI.py (YandexDiskDownloader), a concurrent
range-download engine: it resolves a share link to a direct URL plus metadata,
splits the file into byte ranges, fetches the ranges (one part file each),
and merges the parts into the final file; when the size is unknown or ranges
are unsupported it falls back to a single streamed download.

Modelling choices:
- the filesystem is a map from path strings to byte lists (bytes as Nat);
- the network is an environment oracle: the resolver result and, for each
  requested byte range, an HTTP response (success with a body, failure before
  the part file is opened, or failure midway through streaming the body);
- the thread pool is linearised: chunk fetches run in index order. Every
  claim proved below is insensitive to interleaving, because each fetcher
  writes only its own part file and the shared progress counter is a sum of
  per-chunk contributions (Nat addition is commutative), and the orchestrator
  only looks at the conjunction of the result flags;
- the tqdm progress bar is the Nat counter threaded through the functions;
  per-buffer updates are collapsed to their total, which is the length of the
  bytes delivered (empty buffers are skipped by the code and contribute 0).
-/

namespace YandexCLI

/-- A byte string, as a list of byte values. -/
abbrev Bytes := List Nat

/-- The filesystem: a map from path strings to file contents. -/
abbrev FS := String → Option Bytes

/-- The empty filesystem. -/
def fsEmpty : FS := fun _ => none

/-- Create or overwrite the file at path p, as Python open(p, "wb") + write. -/
def fsWrite (fs : FS) (p : String) (b : Bytes) : FS :=
  fun q => if q = p then some b else fs q

/-- Delete the file at path p, as Python os.remove(p). -/
def fsRemove (fs : FS) (p : String) : FS :=
  fun q => if q = p then none else fs q

/-- Contents of path p, defaulting to the empty file. -/
def fsGetD (fs : FS) (p : String) : Bytes :=
  (fs p).getD []

/-- The part-file path, source line 109: the f-string "{save_path}.part{i}". -/
def partPath (save_path : String) (i : Nat) : String :=
  save_path ++ ".part" ++ Nat.repr i

/-- Result of _get_download_info (source lines 23-42): direct URL, file name,
total size from the content-length header, and whether accept-ranges is
"bytes". -/
structure DownloadInfo where
  url : String
  file_name : String
  file_size : Nat
  supports_ranges : Bool

/-- Outcome of one HTTP GET, as the fetcher observes it:
ok body = status ok and the whole body streamed;
failEarly = the request or the status check raised before the destination
file was opened;
failMid partBody = the stream raised after partBody was already written
to the destination file. -/
inductive HttpResponse where
  | ok (body : Bytes)
  | failEarly
  | failMid (partBody : Bytes)
deriving DecidableEq

/-- The environment: everything the program reads from the network.
resolve is none when _get_download_info raises (a requests.RequestException);
chunkResp gives the response to the ranged GET for bytes=start-stop (the URL
is fixed for the whole job, so it is not a parameter);
simpleResp gives the response to the unbounded GET of the fallback path. -/
structure Env where
  resolve : Option DownloadInfo
  chunkResp : Int → Int → HttpResponse
  simpleResp : HttpResponse

/-- Exceptions the program raises internally. All three are subclasses of
Exception in Python; requestError is moreover a requests.RequestException. -/
inductive Exc where
  | requestError
  | connectionError
  | fileNotFound
deriving DecidableEq

/-- Whether the exception is a subclass of Python Exception (and is therefore
caught by the second except clause of download, source line 123). -/
def Exc.isException : Exc → Bool
  | .requestError => true
  | .connectionError => true
  | .fileNotFound => true

/-- Whether the exception is a requests.RequestException (caught by the first
except clause of download, source line 121). -/
def Exc.isRequestException : Exc → Bool
  | .requestError => true
  | .connectionError => false
  | .fileNotFound => false

/-- The byte range of chunk i, source lines 103-107: start and (inclusive)
stop offsets. base = file_size // num_threads; start = i * base;
stop = start + base - 1, except that the last chunk ends at file_size - 1.
Offsets are integers: when base = 0 the non-last stops are start - 1. -/
def chunkRange (S N i : Nat) : Int × Int :=
  let base := S / N
  let start : Int := (i * base : Nat)
  (start, if i = N - 1 then (S : Int) - 1 else start + (base : Int) - 1)

/-- The full chunk plan, the ordered ranges built by the loop at source
line 103. -/
def chunkPlan (S N : Nat) : List (Int × Int) :=
  (List.range N).map (chunkRange S N)

/-- Length in bytes of a chunk (inclusive range). -/
def chunkLen (c : Int × Int) : Int :=
  c.2 - c.1 + 1

/-- One chunk fetch, _download_chunk (source lines 44-63). Returns the
success flag together with the updated filesystem and progress counter.
On success the whole body is written to the part file and the progress
counter grows by its length; on an early failure the part file is removed
if it exists; on a mid-stream failure the prefix already written (and
counted) is removed again, so no truncated artifact is left. The exception
is caught inside the function: only the Bool escapes. -/
def download_chunk (resp : HttpResponse) (part_path : String) (fs : FS)
    (pbar : Nat) : Bool × FS × Nat :=
  match resp with
  | .ok body => (true, fsWrite fs part_path body, pbar + body.length)
  | .failEarly => (false, fsRemove fs part_path, pbar)
  | .failMid pre =>
      (false, fsRemove (fsWrite fs part_path pre) part_path, pbar + pre.length)

/-- The chunk-dispatch loop of download (source lines 103-113), linearised:
fetch chunks i, i+1, ... while rem chunks remain, collecting the list of
success flags in index order together with the final filesystem and progress
counter. The real code submits all chunks to a thread pool and collects the
flags in completion order; the orchestrator only evaluates their conjunction,
each fetcher touches only its own part file, and the progress counter is a
commutative sum, so this linearisation preserves every observable the claims
mention. -/
def runChunks (resp : Int → Int → HttpResponse) (save_path : String)
    (S N : Nat) : Nat → Nat → FS → Nat → List Bool × FS × Nat
  | _, 0, fs, pbar => ([], fs, pbar)
  | i, rem + 1, fs, pbar =>
      let c := chunkRange S N i
      let r := download_chunk (resp c.1 c.2) (partPath save_path i) fs pbar
      let rest := runChunks resp save_path S N (i + 1) rem r.2.1 r.2.2
      (r.1 :: rest.1, rest.2.1, rest.2.2)

/-- The merge loop of _merge_files (source lines 69-75): with rem parts left
to append starting at index i, read each part in index order and append its
bytes to the final file; if a part is missing, raise FileNotFoundError (the
final file keeps what was appended so far, since the with-block only closes
it). -/
def mergeLoop (final_path : String) : Nat → Nat → FS → FS × Option Exc
  | _, 0, fs => (fs, none)
  | i, rem + 1, fs =>
      match fs (partPath final_path i) with
      | none => (fs, some Exc.fileNotFound)
      | some b =>
          mergeLoop final_path (i + 1) rem
            (fsWrite fs final_path (fsGetD fs final_path ++ b))

/-- The cleanup pass of _merge_files (source lines 76-82), run in the finally
block: delete every existing part file of the job. -/
def mergeCleanup (final_path : String) (num_parts : Nat) (fs : FS) : FS :=
  (List.range num_parts).foldl
    (fun fs i =>
      let part_path := partPath final_path i
      if (fs part_path).isSome then fsRemove fs part_path else fs)
    fs

/-- _merge_files (source lines 65-82): open the final path for writing
(truncating it to empty), append the parts in index order 0..num_parts-1,
then — on both the normal and the raising exit path — run the cleanup pass.
Returns the filesystem and the exception escaping the function, if any. -/
def merge_files (fs : FS) (final_path : String) (num_parts : Nat) :
    FS × Option Exc :=
  let r := mergeLoop final_path 0 num_parts (fsWrite fs final_path [])
  (mergeCleanup final_path num_parts r.1, r.2)

/-- _simple_download (source lines 126-136), the fallback path: one unbounded
streamed GET written directly to the final destination path. There is no
cleanup here: a mid-stream failure leaves the bytes already streamed at
save_path and re-raises; the returned Option Exc is the exception escaping
to the caller. -/
def simple_download (resp : HttpResponse) (save_path : String) (fs : FS)
    (pbar : Nat) : FS × Nat × Option Exc :=
  match resp with
  | .ok body => (fsWrite fs save_path body, pbar + body.length, none)
  | .failEarly => (fs, pbar, some Exc.requestError)
  | .failMid pre => (fsWrite fs save_path pre, pbar + pre.length,
      some Exc.requestError)

/-- The chunked branch of download (source lines 96-119): dispatch all
num_threads chunk fetches, wait for every result, and only if all succeeded
run the merge; otherwise raise ConnectionError without merging. -/
def chunkedPath (resp : Int → Int → HttpResponse) (save_path : String)
    (file_size num_threads : Nat) (fs : FS) : FS × Nat × Option Exc :=
  let r := runChunks resp save_path file_size num_threads 0 num_threads fs 0
  if r.1.all id then
    let m := merge_files r.2.1 save_path num_threads
    (m.1, r.2.2, m.2)
  else
    (r.2.1, r.2.2, some Exc.connectionError)

/-- The body of the try block of download (source lines 86-119): resolve,
then either fall back to the single stream (size falsy or no range support)
or take the chunked path. save_path is os.path.join of the download location
and the resolved file name. The Option Exc is the exception reaching the
except clauses, if any. -/
def downloadBody (env : Env) (download_location : String) (num_threads : Nat)
    (fs : FS) : FS × Nat × Option Exc :=
  match env.resolve with
  | none => (fs, 0, some Exc.requestError)
  | some info =>
      let save_path := download_location ++ "/" ++ info.file_name
      if info.file_size = 0 ∨ info.supports_ranges = false then
        simple_download env.simpleResp save_path fs 0
      else
        chunkedPath env.chunkResp save_path info.file_size num_threads fs

/-- How the top-level download call ends: complete (it printed the success
message), caught e (an internal exception was caught by an except clause and
printed as a diagnostic; the call returns normally), or uncaught e (an
exception escaped to the caller — the claims say this never happens). -/
inductive Outcome where
  | complete
  | caught (e : Exc)
  | uncaught (e : Exc)
deriving DecidableEq

/-- Result of a top-level download call: final filesystem, final value of the
progress counter, and how the call ended. -/
structure RunResult where
  fs : FS
  progress : Nat
  outcome : Outcome

/-- download (source lines 84-124): run the body and dispatch any escaping
exception against the two except clauses — requests.RequestException first,
then Exception. -/
def download (env : Env) (download_location : String) (num_threads : Nat)
    (fs : FS) : RunResult :=
  let r := downloadBody env download_location num_threads fs
  match r.2.2 with
  | none => ⟨r.1, r.2.1, Outcome.complete⟩
  | some e =>
      if e.isRequestException then ⟨r.1, r.2.1, Outcome.caught e⟩
      else if e.isException then ⟨r.1, r.2.1, Outcome.caught e⟩
      else ⟨r.1, r.2.1, Outcome.uncaught e⟩

/-- The byte span [c.1, c.2] (inclusive) of a byte string, empty when the
range is empty. This is the body a range-conforming server returns for the
request bytes=c.1-c.2, per the wire contract. -/
def rangeSlice (l : Bytes) (c : Int × Int) : Bytes :=
  if c.2 < c.1 then [] else (l.drop c.1.toNat).take (c.2 - c.1 + 1).toNat

/-! ### Lemmas about the chunk plan -/

/-- A chunk other than the last has length base = S / N. -/
lemma chunkLen_mid {S N i : Nat} (h : i ≠ N - 1) :
    chunkLen (chunkRange S N i) = ((S / N : Nat) : Int) := by
  simp only [chunkLen, chunkRange, if_neg h]
  push_cast
  ring

/-- The last chunk has length S - (N-1) * base, as an integer. -/
lemma chunkLen_last (S N : Nat) :
    chunkLen (chunkRange S N (N - 1)) =
      (S : Int) - ((N - 1) * (S / N) : Nat) := by
  simp only [chunkLen, chunkRange, if_pos rfl]
  push_cast
  ring

/-- Sum of the lengths of the first m chunks, for m below the last index. -/
lemma chunkLen_sum_range {S N : Nat} :
    ∀ m, m ≤ N - 1 →
      ((List.range m).map (fun i => chunkLen (chunkRange S N i))).sum =
        ((m * (S / N) : Nat) : Int)
  | 0, _ => by simp
  | m + 1, hm => by
      rw [List.range_succ, List.map_append, List.sum_append,
        chunkLen_sum_range m (Nat.le_of_succ_le hm)]
      have hne : m ≠ N - 1 := by omega
      simp only [List.map_cons, List.map_nil, List.sum_cons, List.sum_nil,
        chunkLen_mid hne]
      push_cast
      ring

/-- The element at index i of the chunk plan is chunkRange S N i. -/
lemma chunkPlan_getD {S N i : Nat} (hi : i < N) :
    (chunkPlan S N).getD i (0, 0) = chunkRange S N i := by
  simp [chunkPlan, List.getD_eq_getElem?_getD, List.getElem?_map,
    List.getElem?_range hi]

/-- C1: for every total size S > 0 and worker count N >= 1, the chunk plan is
contiguous and exhaustive: it has N chunks, chunk i is chunkRange S N i,
chunk 0 starts at 0, each chunk ends right before the next one starts, the
last chunk ends at S - 1, and the chunk lengths sum to S. -/
theorem chunk_plan_contiguous_exhaustive (S N : Nat) (hS : 0 < S)
    (hN : 1 ≤ N) :
    (chunkPlan S N).length = N ∧
    (∀ i, i < N → (chunkPlan S N).getD i (0, 0) = chunkRange S N i) ∧
    (chunkRange S N 0).1 = 0 ∧
    (∀ i, i + 1 < N → (chunkRange S N i).2 + 1 = (chunkRange S N (i + 1)).1) ∧
    (chunkRange S N (N - 1)).2 = (S : Int) - 1 ∧
    ((chunkPlan S N).map chunkLen).sum = (S : Int) := by
  refine ⟨by simp [chunkPlan], fun i hi => chunkPlan_getD hi, by
    simp [chunkRange], fun i hi => ?_, by simp [chunkRange], ?_⟩
  · have hne : i ≠ N - 1 := by omega
    simp only [chunkRange, if_neg hne]
    push_cast
    ring
  · obtain ⟨M, rfl⟩ : ∃ M, N = M + 1 := ⟨N - 1, by omega⟩
    rw [chunkPlan, List.map_map, List.range_succ, List.map_append,
      List.sum_append]
    have h1 := chunkLen_sum_range (S := S) (N := M + 1) M (by omega)
    have h2 := chunkLen_last S (M + 1)
    simp only [Nat.add_sub_cancel] at h2
    simp only [Function.comp_def, h1, List.map_cons, List.map_nil,
      List.sum_cons, List.sum_nil, h2]
    ring

/-- C1 witness: the plan for S = 10, N = 3 (the concrete example of the
spec: chunks [0,2], [3,5], [6,9]). -/
theorem chunk_plan_contiguous_exhaustive_witness :
    0 < 10 ∧ 1 ≤ 3 ∧
    ((chunkPlan 10 3).length = 3 ∧
      (∀ i, i < 3 → (chunkPlan 10 3).getD i (0, 0) = chunkRange 10 3 i) ∧
      (chunkRange 10 3 0).1 = 0 ∧
      (∀ i, i + 1 < 3 →
        (chunkRange 10 3 i).2 + 1 = (chunkRange 10 3 (i + 1)).1) ∧
      (chunkRange 10 3 (3 - 1)).2 = (10 : Int) - 1 ∧
      ((chunkPlan 10 3).map chunkLen).sum = (10 : Int)) :=
  ⟨by decide, by decide,
    chunk_plan_contiguous_exhaustive 10 3 (by decide) (by decide)⟩

/-- C8 counterexample: at S = 1, N = 2 the plan does have exactly N = 2
chunks, but it is not the chunks with index i >= S = 1 that are zero-length:
chunk 1 has length 1 (it is chunk 0, with index below S, that is
zero-length). -/
theorem chunk_plan_degenerate_counterexample :
    ¬ ((chunkPlan 1 2).length = 2 ∧
      ∀ i, i < 2 → 1 ≤ i → chunkLen (chunkRange 1 2 i) = 0) := by
  decide

/-- C8 amended: for 0 < S < N the plan still produces exactly N chunks;
the zero-length chunks are exactly those with index i < N - 1 (the last
chunk carries all S bytes); and a fetcher whose ranged request succeeds
with an empty body completes as an empty successful transfer: success =
true, an empty part store, and an unchanged progress counter. -/
theorem chunk_plan_degenerate (S N : Nat) (hS : 0 < S) (hSN : S < N) :
    (chunkPlan S N).length = N ∧
    (∀ i, i < N - 1 → chunkLen (chunkRange S N i) = 0) ∧
    chunkLen (chunkRange S N (N - 1)) = (S : Int) ∧
    (∀ p fs pbar, download_chunk (HttpResponse.ok []) p fs pbar =
      (true, fsWrite fs p [], pbar)) := by
  have hbase : S / N = 0 := Nat.div_eq_of_lt hSN
  refine ⟨by simp [chunkPlan], fun i hi => ?_, ?_, fun p fs pbar => ?_⟩
  · rw [chunkLen_mid (by omega), hbase]
    simp
  · rw [chunkLen_last, hbase]
    simp
  · simp [download_chunk]

/-- C8 witness: the amended statement at S = 1, N = 2. -/
theorem chunk_plan_degenerate_witness :
    0 < 1 ∧ 1 < 2 ∧
    ((chunkPlan 1 2).length = 2 ∧
      (∀ i, i < 2 - 1 → chunkLen (chunkRange 1 2 i) = 0) ∧
      chunkLen (chunkRange 1 2 (2 - 1)) = (1 : Int) ∧
      (∀ p fs pbar, download_chunk (HttpResponse.ok []) p fs pbar =
        (true, fsWrite fs p [], pbar))) :=
  ⟨by decide, by decide, chunk_plan_degenerate 1 2 (by decide) (by decide)⟩

/-! ### Part-file paths are pairwise distinct and distinct from the final
path. These facts about the f-string "{save_path}.part{i}" underlie the
claims that each fetcher touches only its own part file and that the merge
write to the final path disturbs no part file. They need injectivity of the
decimal rendering of Nat, proved here via Nat.digits. -/

/-- Unfolding of the fuel-based core of Nat.toDigits at base 10: with enough
fuel, it renders the decimal digits (most significant first) before the
accumulator. -/
lemma toDigitsCore_eq (n : Nat) : ∀ fuel ds, n < fuel →
    Nat.toDigitsCore 10 fuel n ds =
      (if n = 0 then [Nat.digitChar 0]
       else ((Nat.digits 10 n).map Nat.digitChar).reverse) ++ ds := by
  induction n using Nat.strong_induction_on with
  | _ n ih =>
    intro fuel ds hfuel
    match fuel, hfuel with
    | fuel + 1, _ =>
      rw [Nat.toDigitsCore]
      by_cases h0 : n / 10 = 0
      · simp only [h0, if_pos rfl]
        by_cases hn : n = 0
        · subst hn
          simp
        · rw [if_neg hn, Nat.digits_def' (by norm_num) (Nat.pos_of_ne_zero hn),
            h0]
          have hmod : n % 10 = n := Nat.mod_eq_of_lt (by omega)
          simp [hmod]
      · simp only [h0, if_neg h0]
        have hlt : n / 10 < n := Nat.div_lt_self (by omega) (by norm_num)
        have hn : n ≠ 0 := by omega
        rw [ih (n / 10) hlt fuel _ (by omega), if_neg h0, if_neg hn,
          Nat.digits_def' (b := 10) (by norm_num) (n := n) (by omega)]
        simp

/-- The decimal rendering of n, as a character list. -/
lemma repr_data (n : Nat) :
    (Nat.repr n).data =
      if n = 0 then [Nat.digitChar 0]
      else ((Nat.digits 10 n).map Nat.digitChar).reverse := by
  rw [Nat.repr, Nat.toDigits, toDigitsCore_eq n (n + 1) [] (by omega)]
  simp [List.asString]

/-- Nat.digitChar is injective on digits. -/
lemma digitChar_inj {a b : Nat} (ha : a < 10) (hb : b < 10)
    (h : Nat.digitChar a = Nat.digitChar b) : a = b := by
  interval_cases a <;> interval_cases b <;> simp_all [Nat.digitChar]

/-- Mapping Nat.digitChar over lists of digits is injective. -/
lemma map_digitChar_inj : ∀ (l1 l2 : List Nat), (∀ x ∈ l1, x < 10) →
    (∀ x ∈ l2, x < 10) → l1.map Nat.digitChar = l2.map Nat.digitChar →
    l1 = l2
  | [], [], _, _, _ => rfl
  | [], _ :: _, _, _, h => by simp at h
  | _ :: _, [], _, _, h => by simp at h
  | a :: l1, b :: l2, h1, h2, h => by
      simp only [List.map_cons, List.cons.injEq] at h
      have hd := digitChar_inj (h1 a (by simp)) (h2 b (by simp)) h.1
      have tl := map_digitChar_inj l1 l2 (fun x hx => h1 x (by simp [hx]))
        (fun x hx => h2 x (by simp [hx])) h.2
      rw [hd, tl]

/-- The decimal rendering of Nat is injective. -/
lemma repr_inj {m n : Nat} (h : Nat.repr m = Nat.repr n) : m = n := by
  have hd : (Nat.repr m).data = (Nat.repr n).data := by rw [h]
  rw [repr_data, repr_data] at hd
  by_cases hm : m = 0 <;> by_cases hn : n = 0
  · rw [hm, hn]
  · exfalso
    rw [if_pos hm, if_neg hn] at hd
    have hrev := congrArg List.reverse hd
    simp only [List.reverse_reverse, List.reverse_singleton] at hrev
    have hlen : (Nat.digits 10 n).length = 1 := by
      have := congrArg List.length hrev
      simpa using this.symm
    obtain ⟨d, hdig⟩ := List.length_eq_one.mp hlen
    rw [hdig] at hrev
    simp only [List.map_cons, List.map_nil, List.cons.injEq] at hrev
    have hd0 : d = 0 := digitChar_inj
      (Nat.digits_lt_base (by norm_num) (by rw [hdig]; simp)) (by norm_num)
      hrev.1.symm
    have hof := Nat.ofDigits_digits 10 n
    rw [hdig, hd0] at hof
    simp [Nat.ofDigits] at hof
    exact hn hof.symm
  · exfalso
    rw [if_neg hm, if_pos hn] at hd
    have hrev := congrArg List.reverse hd
    simp only [List.reverse_reverse, List.reverse_singleton] at hrev
    have hlen : (Nat.digits 10 m).length = 1 := by
      have := congrArg List.length hrev
      simpa using this
    obtain ⟨d, hdig⟩ := List.length_eq_one.mp hlen
    rw [hdig] at hrev
    simp only [List.map_cons, List.map_nil, List.cons.injEq] at hrev
    have hd0 : d = 0 := digitChar_inj
      (Nat.digits_lt_base (by norm_num) (by rw [hdig]; simp)) (by norm_num)
      hrev.1
    have hof := Nat.ofDigits_digits 10 m
    rw [hdig, hd0] at hof
    simp [Nat.ofDigits] at hof
    exact hm hof.symm
  · rw [if_neg hm, if_neg hn] at hd
    have hrev := congrArg List.reverse hd
    simp only [List.reverse_reverse] at hrev
    have := map_digitChar_inj _ _
      (fun x hx => Nat.digits_lt_base (by norm_num) hx)
      (fun x hx => Nat.digits_lt_base (by norm_num) hx) hrev
    exact Nat.digits_inj_iff.mp this

/-- Two part paths of the same job with distinct indexes are distinct. -/
lemma partPath_inj {sp : String} {i j : Nat}
    (h : partPath sp i = partPath sp j) : i = j := by
  apply repr_inj
  apply String.ext
  have hd := congrArg String.data h
  simp only [partPath, String.data_append, List.append_assoc] at hd
  exact List.append_cancel_left (List.append_cancel_left hd)

/-- A part path is distinct from the final path it is derived from. -/
lemma partPath_ne_self (sp : String) (i : Nat) : partPath sp i ≠ sp := by
  intro h
  have hl := congrArg String.length h
  rw [partPath] at hl
  simp only [String.length_append] at hl
  have : String.length ".part" = 5 := rfl
  omega

/-! ### Filesystem lemmas -/

lemma fsWrite_self (fs : FS) (p : String) (b : Bytes) :
    fsWrite fs p b p = some b := by
  simp [fsWrite]

lemma fsWrite_other {p q : String} (h : q ≠ p) (fs : FS) (b : Bytes) :
    fsWrite fs p b q = fs q := by
  simp [fsWrite, h]

lemma fsRemove_self (fs : FS) (p : String) : fsRemove fs p p = none := by
  simp [fsRemove]

lemma fsRemove_other {p q : String} (h : q ≠ p) (fs : FS) :
    fsRemove fs p q = fs q := by
  simp [fsRemove, h]

/-! ### Merge lemmas -/

/-- Concatenation of the part contents for indexes i, i+1, ..., i+rem-1, in
index order. -/
def contentJoin (content : Nat → Bytes) : Nat → Nat → Bytes
  | _, 0 => []
  | i, rem + 1 => content i ++ contentJoin content (i + 1) rem

/-- contentJoin starting at 0 is the flattening of the first N contents. -/
lemma contentJoin_eq_flatten (content : Nat → Bytes) :
    ∀ N i, contentJoin content i N =
      ((List.range N).map (fun k => content (i + k))).flatten
  | 0, i => by simp [contentJoin]
  | N + 1, i => by
      rw [contentJoin, contentJoin_eq_flatten content N (i + 1),
        List.range_succ_eq_map, List.map_cons, List.flatten_cons,
        List.map_map]
      have h2 : List.map ((fun k => content (i + k)) ∘ Nat.succ)
          (List.range N) = List.map (fun k => content (i + 1 + k))
          (List.range N) :=
        List.map_congr_left (fun k _ => by
          simp only [Function.comp_apply]
          congr 1
          omega)
      rw [h2]
      simp

/-- One cleanup step never creates a file. -/
lemma cleanupStep_none {fs : FS} {q : String} (h : fs q = none)
    (p : String) :
    (if (fs p).isSome then fsRemove fs p else fs) q = none := by
  by_cases hp : (fs p).isSome <;> simp only [hp, if_true, if_false]
  · by_cases hq : q = p
    · rw [hq]
      exact fsRemove_self fs p
    · rw [fsRemove_other hq]
      exact h
  · exact h

/-- The cleanup fold never creates a file. -/
lemma mergeCleanup_fold_none (sp : String) :
    ∀ (L : List Nat) (fs : FS) (q : String), fs q = none →
      (L.foldl (fun fs i =>
        let part_path := partPath sp i
        if (fs part_path).isSome then fsRemove fs part_path else fs) fs) q =
        none
  | [], _, _, h => h
  | j :: L, fs, q, h => by
      rw [List.foldl_cons]
      exact mergeCleanup_fold_none sp L _ q (cleanupStep_none h (partPath sp j))

/-- After the cleanup fold over a list containing index i, the part file of
index i is absent. -/
lemma mergeCleanup_fold_mem (sp : String) :
    ∀ (L : List Nat) (fs : FS) (i : Nat), i ∈ L →
      (L.foldl (fun fs i =>
        let part_path := partPath sp i
        if (fs part_path).isSome then fsRemove fs part_path else fs) fs)
        (partPath sp i) = none
  | [], _, _, h => absurd h (List.not_mem_nil _)
  | j :: L, fs, i, h => by
      rw [List.foldl_cons]
      rcases List.mem_cons.mp h with hij | hmem
      · subst hij
        apply mergeCleanup_fold_none
        by_cases hp : (fs (partPath sp i)).isSome <;>
          simp only [hp, if_true, if_false]
        · exact fsRemove_self fs (partPath sp i)
        · simpa using hp
      · exact mergeCleanup_fold_mem sp L _ i hmem

/-- After the cleanup pass, every part file of the job is absent. -/
lemma mergeCleanup_lookup {sp : String} {N i : Nat} (hi : i < N) (fs : FS) :
    mergeCleanup sp N fs (partPath sp i) = none :=
  mergeCleanup_fold_mem sp (List.range N) fs i (List.mem_range.mpr hi)

/-- The cleanup pass touches only part files of the job. -/
lemma mergeCleanup_fold_other (sp : String) :
    ∀ (L : List Nat) (fs : FS) (q : String), (∀ j ∈ L, q ≠ partPath sp j) →
      (L.foldl (fun fs i =>
        let part_path := partPath sp i
        if (fs part_path).isSome then fsRemove fs part_path else fs) fs) q =
        fs q
  | [], _, _, _ => rfl
  | j :: L, fs, q, h => by
      rw [List.foldl_cons]
      rw [mergeCleanup_fold_other sp L _ q (fun k hk => h k (by simp [hk]))]
      by_cases hp : (fs (partPath sp j)).isSome = true
      · rw [if_pos hp]
        exact fsRemove_other (h j (by simp)) fs
      · rw [if_neg hp]

/-- The cleanup pass preserves the lookup at any path that is not a part
file of the job, in particular at the final path. -/
lemma mergeCleanup_other {sp q : String} {N : Nat}
    (h : ∀ j, j < N → q ≠ partPath sp j) (fs : FS) :
    mergeCleanup sp N fs q = fs q :=
  mergeCleanup_fold_other sp (List.range N) fs q
    (fun j hj => h j (List.mem_range.mp hj))

/-- The merge loop with every needed part present: it raises nothing,
appends the part contents to the final file in index order, and touches no
other path. -/
lemma mergeLoop_ok (sp : String) (content : Nat → Bytes) :
    ∀ rem i acc fs, fs sp = some acc →
      (∀ k, k < rem → fs (partPath sp (i + k)) = some (content (i + k))) →
      (mergeLoop sp i rem fs).2 = none ∧
      (mergeLoop sp i rem fs).1 sp = some (acc ++ contentJoin content i rem) ∧
      (∀ q, q ≠ sp → (mergeLoop sp i rem fs).1 q = fs q)
  | 0, i, acc, fs, hacc, _ => by
      simp [mergeLoop, hacc, contentJoin]
  | rem + 1, i, acc, fs, hacc, hparts => by
      have hp0 : fs (partPath sp i) = some (content i) := by
        have := hparts 0 (by omega)
        simpa using this
      have hgetD : fsGetD fs sp = acc := by simp [fsGetD, hacc]
      simp only [mergeLoop, hp0, hgetD]
      have hacc1 : fsWrite fs sp (acc ++ content i) sp =
          some (acc ++ content i) := fsWrite_self fs sp (acc ++ content i)
      have hparts1 : ∀ k, k < rem →
          fsWrite fs sp (acc ++ content i) (partPath sp (i + 1 + k)) =
            some (content (i + 1 + k)) := by
        intro k hk
        rw [fsWrite_other (partPath_ne_self sp (i + 1 + k))]
        have := hparts (k + 1) (by omega)
        have harg : i + (k + 1) = i + 1 + k := by omega
        rw [harg] at this
        exact this
      obtain ⟨h1, h2, h3⟩ := mergeLoop_ok sp content rem (i + 1)
        (acc ++ content i) _ hacc1 hparts1
      refine ⟨h1, ?_, fun q hq => ?_⟩
      · rw [h2, contentJoin]
        simp [List.append_assoc]
      · rw [h3 q hq, fsWrite_other hq]

/-- The merge loop hitting a missing part at offset j: it raises
FileNotFoundError, the final file keeps the concatenation of the parts
before the missing one, and no other path is touched. -/
lemma mergeLoop_missing (sp : String) (content : Nat → Bytes) :
    ∀ rem j i acc fs, j < rem → fs sp = some acc →
      (∀ k, k < j → fs (partPath sp (i + k)) = some (content (i + k))) →
      fs (partPath sp (i + j)) = none →
      (mergeLoop sp i rem fs).2 = some Exc.fileNotFound ∧
      (mergeLoop sp i rem fs).1 sp = some (acc ++ contentJoin content i j) ∧
      (∀ q, q ≠ sp → (mergeLoop sp i rem fs).1 q = fs q)
  | 0, j, i, acc, fs, hj, _, _, _ => absurd hj (Nat.not_lt_zero j)
  | rem + 1, 0, i, acc, fs, _, hacc, _, hmiss => by
      have hmiss0 : fs (partPath sp i) = none := by simpa using hmiss
      simp [mergeLoop, hmiss0, hacc, contentJoin]
  | rem + 1, j + 1, i, acc, fs, hj, hacc, hparts, hmiss => by
      have hp0 : fs (partPath sp i) = some (content i) := by
        have := hparts 0 (by omega)
        simpa using this
      have hgetD : fsGetD fs sp = acc := by simp [fsGetD, hacc]
      simp only [mergeLoop, hp0, hgetD]
      have hacc1 : fsWrite fs sp (acc ++ content i) sp =
          some (acc ++ content i) := fsWrite_self fs sp (acc ++ content i)
      have hparts1 : ∀ k, k < j →
          fsWrite fs sp (acc ++ content i) (partPath sp (i + 1 + k)) =
            some (content (i + 1 + k)) := by
        intro k hk
        rw [fsWrite_other (partPath_ne_self sp (i + 1 + k))]
        have := hparts (k + 1) (by omega)
        have harg : i + (k + 1) = i + 1 + k := by omega
        rw [harg] at this
        exact this
      have hmiss1 : fsWrite fs sp (acc ++ content i)
          (partPath sp (i + 1 + j)) = none := by
        rw [fsWrite_other (partPath_ne_self sp (i + 1 + j))]
        have harg : i + (j + 1) = i + 1 + j := by omega
        rw [harg] at hmiss
        exact hmiss
      obtain ⟨h1, h2, h3⟩ := mergeLoop_missing sp content rem j (i + 1)
        (acc ++ content i) _ (by omega) hacc1 hparts1 hmiss1
      refine ⟨h1, ?_, fun q hq => ?_⟩
      · rw [h2, contentJoin]
        simp [List.append_assoc]
      · rw [h3 q hq, fsWrite_other hq]

/-! ### Byte-range slices of the original resource -/

/-- Splitting a take at an intermediate point. -/
lemma take_add_split {α : Type} (l : List α) (m n : Nat) :
    l.take (m + n) = l.take m ++ (l.drop m).take n := by
  rw [List.take_drop]
  conv_lhs => rw [← List.take_append_drop m (l.take (m + n))]
  rw [List.take_take, Nat.min_eq_left (by omega)]

/-- The slice of the inclusive integer range that starts at offset a and
has b bytes. -/
lemma rangeSlice_natCast (l : Bytes) (a b : Nat) :
    rangeSlice l ((a : Int), (a : Int) + (b : Int) - 1) = (l.drop a).take b := by
  by_cases hb : b = 0
  · subst hb
    simp [rangeSlice]
  · rw [rangeSlice]
    simp only
    rw [if_neg (by omega)]
    have h1 : ((a : Int)).toNat = a := Int.toNat_natCast a
    have h2 : ((a : Int) + (b : Int) - 1 - (a : Int) + 1).toNat = b := by
      omega
    rw [h1, h2]

/-- The slice served for a chunk other than the last: base bytes starting
at offset i * base. -/
lemma rangeSlice_mid {S N i : Nat} (hi : i ≠ N - 1) (l : Bytes) :
    rangeSlice l (chunkRange S N i) = (l.drop (i * (S / N))).take (S / N) := by
  simp only [chunkRange, if_neg hi]
  exact rangeSlice_natCast l (i * (S / N)) (S / N)

/-- The slice served for the last chunk: the rest of the resource from
offset (N - 1) * base. -/
lemma rangeSlice_last {S N : Nat} (hle : (N - 1) * (S / N) ≤ S) (l : Bytes) :
    rangeSlice l (chunkRange S N (N - 1)) =
      (l.drop ((N - 1) * (S / N))).take (S - (N - 1) * (S / N)) := by
  simp only [chunkRange, if_pos rfl]
  have h : (S : Int) - 1 =
      (((N - 1) * (S / N) : Nat) : Int) +
        ((S - (N - 1) * (S / N) : Nat) : Int) - 1 := by omega
  rw [h]
  exact rangeSlice_natCast l ((N - 1) * (S / N)) (S - (N - 1) * (S / N))

/-- Concatenating the slices of the first m chunks yields the first
m * base bytes of the resource. -/
lemma flatten_slices_range (l : Bytes) (S N : Nat) :
    ∀ m, m ≤ N - 1 →
      ((List.range m).map (fun i => rangeSlice l (chunkRange S N i))).flatten
        = l.take (m * (S / N))
  | 0, _ => by simp
  | m + 1, hm => by
      rw [List.range_succ, List.map_append, List.flatten_append,
        flatten_slices_range l S N m (by omega)]
      have hne : m ≠ N - 1 := by omega
      simp only [List.map_cons, List.map_nil, List.flatten_cons,
        List.flatten_nil, List.append_nil, rangeSlice_mid hne]
      rw [← take_add_split]
      congr 1
      ring

/-- Round trip: concatenating the range-conforming slices of all N chunks
in index order reproduces the original resource. -/
lemma flatten_slices (l : Bytes) (S N : Nat) (hl : l.length = S)
    (hN : 1 ≤ N) :
    ((List.range N).map (fun i => rangeSlice l (chunkRange S N i))).flatten
      = l := by
  obtain ⟨M, rfl⟩ : ∃ M, N = M + 1 := ⟨N - 1, by omega⟩
  have hle : M * (S / (M + 1)) ≤ S := by
    calc M * (S / (M + 1)) ≤ (M + 1) * (S / (M + 1)) := by
          apply Nat.mul_le_mul_right
          omega
    _ ≤ S := by
          rw [Nat.mul_comm]
          exact Nat.div_mul_le_self S (M + 1)
  rw [List.range_succ, List.map_append, List.flatten_append,
    flatten_slices_range l S (M + 1) M (by omega)]
  simp only [List.map_cons, List.map_nil, List.flatten_cons,
    List.flatten_nil, List.append_nil]
  have hlast := rangeSlice_last (S := S) (N := M + 1) (by simpa using hle) l
  simp only [Nat.add_sub_cancel] at hlast
  have hfull : (l.drop (M * (S / (M + 1)))).take (S - M * (S / (M + 1))) =
      l.drop (M * (S / (M + 1))) :=
    List.take_of_length_le (by simp [hl])
  rw [hlast, hfull, List.take_append_drop]

/-! ### Fetch-loop lemmas -/

/-- Whether a response is a success. -/
def HttpResponse.isOk : HttpResponse → Bool
  | .ok _ => true
  | .failEarly => false
  | .failMid _ => false

/-- Number of bytes delivered (and therefore written and counted) before the
response ended or failed. -/
def HttpResponse.deliveredBytes : HttpResponse → Nat
  | .ok b => b.length
  | .failEarly => 0
  | .failMid pre => pre.length

/-- The response the fetch loop sees for chunk index k. -/
def chunkRespAt (resp : Int → Int → HttpResponse) (S N k : Nat) :
    HttpResponse :=
  resp (chunkRange S N k).1 (chunkRange S N k).2

/-- A chunk fetch leaves every path other than its own part file alone. -/
lemma download_chunk_other (resp : HttpResponse) (p : String) (fs : FS)
    (pbar : Nat) {q : String} (hq : q ≠ p) :
    (download_chunk resp p fs pbar).2.1 q = fs q := by
  cases resp with
  | ok body => exact fsWrite_other hq fs body
  | failEarly => exact fsRemove_other hq fs
  | failMid pre =>
      show fsRemove (fsWrite fs p pre) p q = fs q
      rw [fsRemove_other hq, fsWrite_other hq]

/-- The fetch loop leaves every path that is no part file of the job alone,
in particular the final path. -/
lemma runChunks_other (resp : Int → Int → HttpResponse) (sp : String)
    (S N : Nat) :
    ∀ rem i fs pbar q, (∀ k, q ≠ partPath sp k) →
      (runChunks resp sp S N i rem fs pbar).2.1 q = fs q
  | 0, _, _, _, _, _ => rfl
  | rem + 1, i, fs, pbar, q, hq => by
      rw [runChunks]
      simp only
      rw [runChunks_other resp sp S N rem (i + 1) _ _ q hq,
        download_chunk_other _ _ _ _ (hq i)]

/-- The fetch loop returns one result flag per dispatched chunk: flag k is
the success bit of the response for chunk i + k. -/
lemma runChunks_flags (resp : Int → Int → HttpResponse) (sp : String)
    (S N : Nat) :
    ∀ rem i fs pbar,
      (runChunks resp sp S N i rem fs pbar).1 =
        (List.range rem).map (fun k => (chunkRespAt resp S N (i + k)).isOk)
  | 0, _, _, _ => by simp [runChunks]
  | rem + 1, i, fs, pbar => by
      rw [runChunks]
      simp only
      rw [runChunks_flags resp sp S N rem (i + 1) _ _]
      rw [List.range_succ_eq_map, List.map_cons, List.map_map]
      congr 1
      · cases hr : chunkRespAt resp S N i with
        | ok body =>
            simp [download_chunk, chunkRespAt] at hr ⊢
            rw [hr]
            rfl
        | failEarly =>
            simp [download_chunk, chunkRespAt] at hr ⊢
            rw [hr]
            rfl
        | failMid pre =>
            simp [download_chunk, chunkRespAt] at hr ⊢
            rw [hr]
            rfl
      · apply List.map_congr_left
        intro k _
        simp only [Function.comp_apply]
        congr 2
        omega

/-- The fetch loop adds to the progress counter exactly the bytes delivered
across all its chunks. -/
lemma runChunks_pbar (resp : Int → Int → HttpResponse) (sp : String)
    (S N : Nat) :
    ∀ rem i fs pbar,
      (runChunks resp sp S N i rem fs pbar).2.2 =
        pbar + ((List.range rem).map
          (fun k => (chunkRespAt resp S N (i + k)).deliveredBytes)).sum
  | 0, _, _, _ => by simp [runChunks]
  | rem + 1, i, fs, pbar => by
      rw [runChunks]
      simp only
      rw [runChunks_pbar resp sp S N rem (i + 1) _ _]
      rw [List.range_succ_eq_map, List.map_cons, List.map_map, List.sum_cons]
      have hstep : (download_chunk (resp (chunkRange S N i).1
          (chunkRange S N i).2) (partPath sp i) fs pbar).2.2 =
          pbar + (chunkRespAt resp S N i).deliveredBytes := by
        cases hr : chunkRespAt resp S N i with
        | ok body =>
            simp only [chunkRespAt] at hr
            rw [hr]
            rfl
        | failEarly =>
            simp only [chunkRespAt] at hr
            rw [hr]
            simp [download_chunk, HttpResponse.deliveredBytes]
        | failMid pre =>
            simp only [chunkRespAt] at hr
            rw [hr]
            rfl
      rw [hstep]
      have hmap : List.map ((fun k => (chunkRespAt resp S N (i + k)).deliveredBytes)
          ∘ Nat.succ) (List.range rem) =
          List.map (fun k => (chunkRespAt resp S N (i + 1 + k)).deliveredBytes)
          (List.range rem) :=
        List.map_congr_left (fun k _ => by
          simp only [Function.comp_apply]
          congr 2
          omega)
      rw [hmap]
      have hzero : i + 0 = i := by omega
      rw [hzero]
      omega

/-- The fetch loop leaves the part files of chunks below its start index
alone. -/
lemma runChunks_low (resp : Int → Int → HttpResponse) (sp : String)
    (S N : Nat) :
    ∀ rem i fs pbar j, j < i →
      (runChunks resp sp S N i rem fs pbar).2.1 (partPath sp j) =
        fs (partPath sp j)
  | 0, _, _, _, _, _ => rfl
  | rem + 1, i, fs, pbar, j, hj => by
      rw [runChunks]
      simp only
      rw [runChunks_low resp sp S N rem (i + 1) _ _ j (by omega),
        download_chunk_other]
      intro h
      exact absurd (partPath_inj h) (by omega)

/-- After the fetch loop, the part file of every chunk whose response was a
success holds exactly the delivered body. -/
lemma runChunks_ok_part (resp : Int → Int → HttpResponse) (sp : String)
    (S N : Nat) :
    ∀ rem i fs pbar j b, i ≤ j → j < i + rem →
      chunkRespAt resp S N j = HttpResponse.ok b →
      (runChunks resp sp S N i rem fs pbar).2.1 (partPath sp j) = some b
  | 0, i, _, _, j, _, hle, hlt, _ => absurd hlt (by omega)
  | rem + 1, i, fs, pbar, j, b, hle, hlt, hok => by
      rw [runChunks]
      simp only
      by_cases hij : j = i
      · subst hij
        rw [runChunks_low resp sp S N rem (j + 1) _ _ j (by omega)]
        simp only [chunkRespAt] at hok
        rw [hok]
        simp [download_chunk, fsWrite_self]
      · exact runChunks_ok_part resp sp S N rem (i + 1) _ _ j b (by omega)
          (by omega) hok

/-- contentJoin starting at index 0 flattens the first N contents. -/
lemma contentJoin_zero (content : Nat → Bytes) (N : Nat) :
    contentJoin content 0 N = ((List.range N).map content).flatten := by
  rw [contentJoin_eq_flatten]
  exact congrArg List.flatten (List.map_congr_left fun k _ => by simp)

/-- The final path differs from every part path of the job. -/
lemma self_ne_partPath (sp : String) : ∀ j, j < (N : Nat) → sp ≠ partPath sp j :=
  fun j _ => (partPath_ne_self sp j).symm

/-- C3: when every part store of the job is present, the merge succeeds and
the final file is the byte-for-byte concatenation of the part contents in
chunk-index order 0..N-1; and if the parts hold the range-conforming slices
of an original resource of size S under the chunk plan, that concatenation
reproduces the original resource. -/
theorem merge_concatenates_parts_in_index_order (fs : FS) (sp : String)
    (N : Nat) (content : Nat → Bytes)
    (hparts : ∀ i, i < N → fs (partPath sp i) = some (content i)) :
    (merge_files fs sp N).2 = none ∧
    (merge_files fs sp N).1 sp = some (((List.range N).map content).flatten) ∧
    (∀ (l : Bytes) (S : Nat), l.length = S → 1 ≤ N →
      (∀ i, i < N → content i = rangeSlice l (chunkRange S N i)) →
      ((List.range N).map content).flatten = l) := by
  have hfs0 : fsWrite fs sp [] sp = some [] := fsWrite_self fs sp []
  have hparts0 : ∀ k, k < N →
      fsWrite fs sp [] (partPath sp (0 + k)) = some (content (0 + k)) := by
    intro k hk
    rw [fsWrite_other (partPath_ne_self sp (0 + k))]
    exact hparts (0 + k) (by omega)
  obtain ⟨h1, h2, h3⟩ := mergeLoop_ok sp content N 0 [] _ hfs0 hparts0
  refine ⟨h1, ?_, ?_⟩
  · show mergeCleanup sp N
      (mergeLoop sp 0 N (fsWrite fs sp [])).1 sp = _
    rw [mergeCleanup_other (self_ne_partPath (N := N) sp), h2,
      List.nil_append, contentJoin_zero]
  · intro l S hl hN hc
    rw [List.map_congr_left (fun i hi => hc i (List.mem_range.mp hi))]
    exact flatten_slices l S N hl hN

/-- C3 witness: two parts holding [1, 2] and [3] merge into [1, 2, 3],
which is the original 3-byte resource split by the plan for S = 3, N = 2. -/
theorem merge_concatenates_parts_in_index_order_witness :
    (∀ i, i < 2 →
      fsWrite (fsWrite fsEmpty (partPath "d/f" 0) [1, 2])
        (partPath "d/f" 1) [3] (partPath "d/f" i) =
        some (if i = 0 then [1, 2] else [3])) ∧
    (merge_files (fsWrite (fsWrite fsEmpty (partPath "d/f" 0) [1, 2])
      (partPath "d/f" 1) [3]) "d/f" 2).2 = none ∧
    (merge_files (fsWrite (fsWrite fsEmpty (partPath "d/f" 0) [1, 2])
      (partPath "d/f" 1) [3]) "d/f" 2).1 "d/f" = some [1, 2, 3] := by
  refine ⟨by decide, ?_, ?_⟩
  · exact (merge_concatenates_parts_in_index_order
      (fsWrite (fsWrite fsEmpty (partPath "d/f" 0) [1, 2])
        (partPath "d/f" 1) [3]) "d/f" 2
      (fun i => if i = 0 then [1, 2] else [3]) (by decide)).1
  · have h := (merge_concatenates_parts_in_index_order
      (fsWrite (fsWrite fsEmpty (partPath "d/f" 0) [1, 2])
        (partPath "d/f" 1) [3]) "d/f" 2
      (fun i => if i = 0 then [1, 2] else [3]) (by decide)).2.1
    rw [h]
    decide

/-- C7: the cleanup pass runs on every exit path of the merge: whether the
concatenation completed or raised, after merge_files no part file of the
job remains on disk. -/
theorem merge_cleanup_on_every_exit (fs : FS) (sp : String) (N : Nat) :
    ∀ i, i < N → (merge_files fs sp N).1 (partPath sp i) = none := by
  intro i hi
  exact mergeCleanup_lookup hi _

/-- C7 witness: after a merge that succeeded (both parts present) and after
one that raised (a part missing), the part files are gone. -/
theorem merge_cleanup_on_every_exit_witness :
    (0 < 2 ∧
      (merge_files (fsWrite (fsWrite fsEmpty (partPath "d/f" 0) [1, 2])
        (partPath "d/f" 1) [3]) "d/f" 2).1 (partPath "d/f" 0) = none) ∧
    (1 < 2 ∧
      (merge_files (fsWrite fsEmpty (partPath "d/f" 0) [9]) "d/f" 2).1
        (partPath "d/f" 1) = none) :=
  ⟨⟨by decide, merge_cleanup_on_every_exit _ "d/f" 2 0 (by decide)⟩,
   ⟨by decide, merge_cleanup_on_every_exit _ "d/f" 2 1 (by decide)⟩⟩

/-- C6 counterexample: with part 0 present as [1, 2, 3] and part 1 missing,
the merge raises, the destination had no prior file, and yet the partially
written final file [1, 2, 3] is left at the destination path — it is not
discarded. -/
theorem merge_failure_keeps_partial_final_counterexample :
    (merge_files (fsWrite fsEmpty (partPath "d/f" 0) [1, 2, 3]) "d/f" 2).2 =
      some Exc.fileNotFound ∧
    fsWrite fsEmpty (partPath "d/f" 0) [1, 2, 3] "d/f" = none ∧
    (merge_files (fsWrite fsEmpty (partPath "d/f" 0) [1, 2, 3]) "d/f" 2).1
      "d/f" = some [1, 2, 3] := by
  decide

/-- C6 amended: when the merge fails because the part store of index j is
the first one missing, the merge raises FileNotFoundError, the part stores
are all removed by the cleanup pass, but the partially written final file —
the concatenation of the parts before the missing one — is left at the
destination path rather than discarded. -/
theorem merge_missing_part_behavior (fs : FS) (sp : String) (N : Nat)
    (content : Nat → Bytes) (j : Nat) (hj : j < N)
    (hbefore : ∀ k, k < j → fs (partPath sp k) = some (content k))
    (hmiss : fs (partPath sp j) = none) :
    (merge_files fs sp N).2 = some Exc.fileNotFound ∧
    (merge_files fs sp N).1 sp =
      some (((List.range j).map content).flatten) ∧
    (∀ i, i < N → (merge_files fs sp N).1 (partPath sp i) = none) := by
  have hfs0 : fsWrite fs sp [] sp = some [] := fsWrite_self fs sp []
  have hbefore0 : ∀ k, k < j →
      fsWrite fs sp [] (partPath sp (0 + k)) = some (content (0 + k)) := by
    intro k hk
    rw [fsWrite_other (partPath_ne_self sp (0 + k))]
    exact hbefore (0 + k) (by omega)
  have hmiss0 : fsWrite fs sp [] (partPath sp (0 + j)) = none := by
    rw [fsWrite_other (partPath_ne_self sp (0 + j))]
    simpa using hmiss
  obtain ⟨h1, h2, h3⟩ := mergeLoop_missing sp content N j 0 [] _ hj hfs0
    hbefore0 hmiss0
  refine ⟨h1, ?_, fun i hi => mergeCleanup_lookup hi _⟩
  show mergeCleanup sp N (mergeLoop sp 0 N (fsWrite fs sp [])).1 sp = _
  rw [mergeCleanup_other (self_ne_partPath (N := N) sp), h2,
    List.nil_append, contentJoin_zero]

/-- C6 witness: the amended statement at a job with part 0 = [5] present
and part 1 missing: the merge raises, the final file holds [5], and the
part stores are gone. -/
theorem merge_missing_part_behavior_witness :
    (1 < 2 ∧
      (∀ k, k < 1 →
        fsWrite fsEmpty (partPath "d/f" 0) [5] (partPath "d/f" k) =
          some [5]) ∧
      fsWrite fsEmpty (partPath "d/f" 0) [5] (partPath "d/f" 1) = none) ∧
    ((merge_files (fsWrite fsEmpty (partPath "d/f" 0) [5]) "d/f" 2).2 =
      some Exc.fileNotFound ∧
    (merge_files (fsWrite fsEmpty (partPath "d/f" 0) [5]) "d/f" 2).1 "d/f" =
      some (((List.range 1).map (fun _ => [5])).flatten) ∧
    (∀ i, i < 2 →
      (merge_files (fsWrite fsEmpty (partPath "d/f" 0) [5]) "d/f" 2).1
        (partPath "d/f" i) = none)) :=
  ⟨⟨by decide, by decide, by decide⟩,
   merge_missing_part_behavior _ "d/f" 2 (fun _ => [5]) 1 (by decide)
     (by decide) (by decide)⟩

/-- C2: on the chunked path, if at least one of the N chunk fetches fails,
the orchestrator raises ConnectionError (caught and printed) without
invoking the merge: the destination path is left exactly as it was, so no
final file is produced. The judgment happens only after every dispatched
fetcher has returned: every sibling chunk whose fetch succeeded still has
its part store fully written — no fail-fast cancellation. -/
theorem chunk_failure_aborts_merge (env : Env) (loc : String) (N : Nat)
    (fs : FS) (info : DownloadInfo) (hres : env.resolve = some info)
    (hS : info.file_size ≠ 0) (hr : info.supports_ranges = true)
    (hfail : ∃ j, j < N ∧
      (chunkRespAt env.chunkResp info.file_size N j).isOk = false) :
    (download env loc N fs).outcome = Outcome.caught Exc.connectionError ∧
    (download env loc N fs).fs (loc ++ "/" ++ info.file_name) =
      fs (loc ++ "/" ++ info.file_name) ∧
    (∀ i b, i < N →
      chunkRespAt env.chunkResp info.file_size N i = HttpResponse.ok b →
      (download env loc N fs).fs
        (partPath (loc ++ "/" ++ info.file_name) i) = some b) := by
  obtain ⟨j, hjN, hjfail⟩ := hfail
  set sp := loc ++ "/" ++ info.file_name with hsp
  set S := info.file_size with hSdef
  set r := runChunks env.chunkResp sp S N 0 N fs 0 with hrdef
  have hcond : ¬ (r.1.all id = true) := by
    intro hall
    rw [hrdef, runChunks_flags] at hall
    rw [List.all_eq_true] at hall
    have hmem : (chunkRespAt env.chunkResp S N (0 + j)).isOk ∈
        (List.range N).map
          (fun k => (chunkRespAt env.chunkResp S N (0 + k)).isOk) :=
      List.mem_map_of_mem _ (List.mem_range.mpr hjN)
    have := hall _ hmem
    simp only [id_eq] at this
    rw [Nat.zero_add] at this
    rw [this] at hjfail
    simp at hjfail
  have hbody : downloadBody env loc N fs =
      (r.2.1, r.2.2, some Exc.connectionError) := by
    rw [downloadBody, hres]
    simp only
    rw [if_neg (by simp [hS, hr])]
    rw [chunkedPath]
    simp only
    rw [if_neg hcond]
  have hdl : download env loc N fs =
      ⟨r.2.1, r.2.2, Outcome.caught Exc.connectionError⟩ := by
    rw [download, hbody]
    rfl
  rw [hdl]
  refine ⟨rfl, ?_, ?_⟩
  · exact runChunks_other env.chunkResp sp S N N 0 fs 0 sp
      (fun k => (partPath_ne_self sp k).symm)
  · intro i b hiN hok
    exact runChunks_ok_part env.chunkResp sp S N N 0 fs 0 i b (by omega)
      (by omega) hok

/-- C2 witness: two chunks over a 2-byte file; chunk 0 succeeds with [7],
chunk 1 fails. The job is caught as ConnectionError, the destination file
is never created, and the successful sibling part store was still written. -/
theorem chunk_failure_aborts_merge_witness :
    (Env.resolve ⟨some ⟨"u", "f", 2, true⟩,
        fun s _ => if s = 0 then HttpResponse.ok [7] else
          HttpResponse.failEarly,
        HttpResponse.failEarly⟩ = some ⟨"u", "f", 2, true⟩ ∧
      (2 : Nat) ≠ 0 ∧ (true : Bool) = true ∧
      (1 < 2 ∧ (chunkRespAt (fun s _ => if s = 0 then HttpResponse.ok [7]
        else HttpResponse.failEarly) 2 2 1).isOk = false)) ∧
    ((download ⟨some ⟨"u", "f", 2, true⟩,
        fun s _ => if s = 0 then HttpResponse.ok [7] else
          HttpResponse.failEarly,
        HttpResponse.failEarly⟩ "d" 2 fsEmpty).outcome =
      Outcome.caught Exc.connectionError ∧
    (download ⟨some ⟨"u", "f", 2, true⟩,
        fun s _ => if s = 0 then HttpResponse.ok [7] else
          HttpResponse.failEarly,
        HttpResponse.failEarly⟩ "d" 2 fsEmpty).fs ("d" ++ "/" ++ "f") =
      fsEmpty ("d" ++ "/" ++ "f") ∧
    (∀ i b, i < 2 →
      chunkRespAt (fun s _ => if s = 0 then HttpResponse.ok [7] else
        HttpResponse.failEarly) 2 2 i = HttpResponse.ok b →
      (download ⟨some ⟨"u", "f", 2, true⟩,
          fun s _ => if s = 0 then HttpResponse.ok [7] else
            HttpResponse.failEarly,
          HttpResponse.failEarly⟩ "d" 2 fsEmpty).fs
        (partPath ("d" ++ "/" ++ "f") i) = some b)) :=
  ⟨⟨rfl, by decide, rfl,
    ⟨by decide, by decide⟩⟩,
   chunk_failure_aborts_merge
     ⟨some ⟨"u", "f", 2, true⟩,
       fun s _ => if s = 0 then HttpResponse.ok [7] else
         HttpResponse.failEarly,
       HttpResponse.failEarly⟩ "d" 2 fsEmpty ⟨"u", "f", 2, true⟩ rfl
     (by decide) rfl ⟨1, by decide, by decide⟩⟩

/-- C4: if the resolved size is 0 or range support is false, the job takes
the single-stream fallback: it behaves exactly as one unbounded streamed
GET written directly to the final destination path, its result does not
depend on the chunk oracle at all (the planner and the chunk machinery are
never invoked), and no part store is touched. Otherwise the chunked path
is taken. -/
theorem fallback_trigger (env : Env) (loc : String) (N : Nat) (fs : FS)
    (info : DownloadInfo) (hres : env.resolve = some info) :
    ((info.file_size = 0 ∨ info.supports_ranges = false) →
      downloadBody env loc N fs =
        simple_download env.simpleResp (loc ++ "/" ++ info.file_name) fs 0 ∧
      (∀ resp2 : Int → Int → HttpResponse,
        downloadBody { env with chunkResp := resp2 } loc N fs =
          downloadBody env loc N fs) ∧
      (∀ i, (downloadBody env loc N fs).1
        (partPath (loc ++ "/" ++ info.file_name) i) =
          fs (partPath (loc ++ "/" ++ info.file_name) i))) ∧
    (info.file_size ≠ 0 → info.supports_ranges = true →
      downloadBody env loc N fs =
        chunkedPath env.chunkResp (loc ++ "/" ++ info.file_name)
          info.file_size N fs) := by
  constructor
  · intro hfb
    have hbody : downloadBody env loc N fs =
        simple_download env.simpleResp (loc ++ "/" ++ info.file_name) fs 0 := by
      rw [downloadBody, hres]
      simp only
      rw [if_pos hfb]
    refine ⟨hbody, fun resp2 => ?_, fun i => ?_⟩
    · rw [hbody, downloadBody]
      simp only [hres]
      rw [if_pos hfb]
    · rw [hbody]
      cases h : env.simpleResp with
      | ok body =>
          rw [simple_download]
          exact fsWrite_other (partPath_ne_self _ i) fs body
      | failEarly => rfl
      | failMid pre =>
          rw [simple_download]
          exact fsWrite_other (partPath_ne_self _ i) fs pre
  · intro hS hr
    rw [downloadBody, hres]
    simp only
    rw [if_neg (by simp [hS, hr])]

/-- C4 witness: a resolver answer with size 0 routes through the fallback
and ignores the chunk oracle; the second branch is vacuous there. -/
theorem fallback_trigger_witness :
    (Env.resolve ⟨some ⟨"u", "f", 0, true⟩, fun _ _ => HttpResponse.failEarly,
        HttpResponse.ok [1, 2]⟩ = some ⟨"u", "f", 0, true⟩) ∧
    ((((0 : Nat) = 0 ∨ (true : Bool) = false) →
      downloadBody ⟨some ⟨"u", "f", 0, true⟩,
          fun _ _ => HttpResponse.failEarly, HttpResponse.ok [1, 2]⟩
          "d" 2 fsEmpty =
        simple_download (HttpResponse.ok [1, 2]) ("d" ++ "/" ++ "f")
          fsEmpty 0 ∧
      (∀ resp2 : Int → Int → HttpResponse,
        downloadBody ⟨some ⟨"u", "f", 0, true⟩, resp2,
            HttpResponse.ok [1, 2]⟩
            "d" 2 fsEmpty =
          downloadBody ⟨some ⟨"u", "f", 0, true⟩,
            fun _ _ => HttpResponse.failEarly, HttpResponse.ok [1, 2]⟩
            "d" 2 fsEmpty) ∧
      (∀ i, (downloadBody ⟨some ⟨"u", "f", 0, true⟩,
          fun _ _ => HttpResponse.failEarly, HttpResponse.ok [1, 2]⟩
          "d" 2 fsEmpty).1 (partPath ("d" ++ "/" ++ "f") i) =
          fsEmpty (partPath ("d" ++ "/" ++ "f") i))) ∧
    ((0 : Nat) ≠ 0 → (true : Bool) = true →
      downloadBody ⟨some ⟨"u", "f", 0, true⟩,
          fun _ _ => HttpResponse.failEarly, HttpResponse.ok [1, 2]⟩
          "d" 2 fsEmpty =
        chunkedPath (fun _ _ => HttpResponse.failEarly) ("d" ++ "/" ++ "f")
          0 2 fsEmpty)) :=
  ⟨rfl,
   fallback_trigger ⟨some ⟨"u", "f", 0, true⟩,
     fun _ _ => HttpResponse.failEarly, HttpResponse.ok [1, 2]⟩
     "d" 2 fsEmpty ⟨"u", "f", 0, true⟩ rfl⟩

/-- C5: a chunk fetch returns success exactly when the request succeeded;
on success the whole body is written to the part store; on any failure the
partial part store is deleted (no truncated artifact remains), no other
path is touched, the progress counter is never decreased, and the failure
is reported through the returned flag only — the model function is total,
mirroring that the except clause converts the exception into the False
return value with no retry. -/
theorem fetcher_failure_semantics (resp : HttpResponse) (p : String)
    (fs : FS) (pbar : Nat) :
    ((download_chunk resp p fs pbar).1 = true ↔
      ∃ b, resp = HttpResponse.ok b) ∧
    (∀ b, resp = HttpResponse.ok b →
      download_chunk resp p fs pbar =
        (true, fsWrite fs p b, pbar + b.length)) ∧
    ((download_chunk resp p fs pbar).1 = false →
      (download_chunk resp p fs pbar).2.1 p = none ∧
      (∀ q, q ≠ p → (download_chunk resp p fs pbar).2.1 q = fs q)) ∧
    pbar ≤ (download_chunk resp p fs pbar).2.2 := by
  cases resp with
  | ok body =>
      refine ⟨by simp [download_chunk], fun b hb => ?_, by
        simp [download_chunk], by simp [download_chunk]⟩
      rw [download_chunk]
      simp only [HttpResponse.ok.injEq] at hb
      rw [hb]
  | failEarly =>
      refine ⟨by simp [download_chunk], by simp, fun _ => ?_, by
        simp [download_chunk]⟩
      exact ⟨fsRemove_self fs p, fun q hq => fsRemove_other hq fs⟩
  | failMid pre =>
      refine ⟨by simp [download_chunk], by simp, fun _ => ?_, by
        simp [download_chunk]⟩
      constructor
      · show fsRemove (fsWrite fs p pre) p p = none
        exact fsRemove_self _ p
      · intro q hq
        show fsRemove (fsWrite fs p pre) p q = fs q
        rw [fsRemove_other hq, fsWrite_other hq]

/-- C5 witness: a mid-stream failure after 2 bytes deletes the part file
and reports failure; a success writes the body. -/
theorem fetcher_failure_semantics_witness :
    ((download_chunk (HttpResponse.failMid [1, 2]) "d/f.part0" fsEmpty
        0).1 = false →
      (download_chunk (HttpResponse.failMid [1, 2]) "d/f.part0" fsEmpty
        0).2.1 "d/f.part0" = none ∧
      (∀ q, q ≠ "d/f.part0" →
        (download_chunk (HttpResponse.failMid [1, 2]) "d/f.part0" fsEmpty
          0).2.1 q = fsEmpty q)) ∧
    ((download_chunk (HttpResponse.failMid [1, 2]) "d/f.part0" fsEmpty
      0).1 = false) ∧
    download_chunk (HttpResponse.ok [3]) "d/f.part0" fsEmpty 0 =
      (true, fsWrite fsEmpty "d/f.part0" [3], 0 + [3].length) :=
  ⟨(fetcher_failure_semantics (HttpResponse.failMid [1, 2]) "d/f.part0"
      fsEmpty 0).2.2.1,
   by decide,
   (fetcher_failure_semantics (HttpResponse.ok [3]) "d/f.part0" fsEmpty
      0).2.1 [3] rfl⟩

/-- Sum of the chunk byte-lengths of the first m chunks, in Nat. -/
lemma chunkLen_toNat_sum_range (S N : Nat) :
    ∀ m, m ≤ N - 1 →
      ((List.range m).map
        (fun i => (chunkLen (chunkRange S N i)).toNat)).sum = m * (S / N)
  | 0, _ => by simp
  | m + 1, hm => by
      rw [List.range_succ, List.map_append, List.sum_append,
        chunkLen_toNat_sum_range S N m (by omega)]
      have hne : m ≠ N - 1 := by omega
      simp only [List.map_cons, List.map_nil, List.sum_cons, List.sum_nil,
        chunkLen_mid hne, Int.toNat_natCast, Nat.add_zero]
      ring

/-- The chunk byte-lengths of the whole plan sum to S, in Nat. -/
lemma chunkLen_toNat_sum (S N : Nat) (hN : 1 ≤ N) :
    ((List.range N).map
      (fun i => (chunkLen (chunkRange S N i)).toNat)).sum = S := by
  obtain ⟨M, rfl⟩ : ∃ M, N = M + 1 := ⟨N - 1, by omega⟩
  have hle : M * (S / (M + 1)) ≤ S := by
    calc M * (S / (M + 1)) ≤ (M + 1) * (S / (M + 1)) := by
          apply Nat.mul_le_mul_right
          omega
    _ ≤ S := by
          rw [Nat.mul_comm]
          exact Nat.div_mul_le_self S (M + 1)
  rw [List.range_succ, List.map_append, List.sum_append,
    chunkLen_toNat_sum_range S (M + 1) M (by omega)]
  have hlast := chunkLen_last S (M + 1)
  simp only [Nat.add_sub_cancel] at hlast
  simp only [List.map_cons, List.map_nil, List.sum_cons, List.sum_nil,
    hlast]
  omega

/-- The final progress value of a download call is the progress value that
the try-block body computed, whatever exception handling followed. -/
lemma download_progress (env : Env) (loc : String) (N : Nat) (fs : FS) :
    (download env loc N fs).progress =
      (downloadBody env loc N fs).2.1 := by
  rw [download]
  cases h : (downloadBody env loc N fs).2.2 with
  | none => simp only [h]
  | some e =>
      simp only [h]
      split
      · rfl
      · split
        · rfl
        · rfl

/-- On the chunked path the final progress value is the progress the fetch
loop accumulated, whether or not the merge ran. -/
lemma chunkedPath_progress (resp : Int → Int → HttpResponse)
    (sp : String) (S N : Nat) (fs : FS) :
    (chunkedPath resp sp S N fs).2.1 =
      (runChunks resp sp S N 0 N fs 0).2.2 := by
  rw [chunkedPath]
  split
  · rfl
  · rfl

/-- C9: for a successful chunked job in which every chunk response delivers
exactly its planned chunk length, the progress counter — which accumulates
exactly the bytes written, and is never decremented — ends at exactly the
resolved total size S; on the fallback path it ends at the number of bytes
actually streamed. -/
theorem progress_totals (env : Env) (loc : String) (N : Nat) (fs : FS)
    (info : DownloadInfo) (hres : env.resolve = some info) :
    ((info.file_size ≠ 0 → info.supports_ranges = true → 1 ≤ N →
      (∀ i, i < N →
        (chunkRespAt env.chunkResp info.file_size N i).isOk = true) →
      (∀ i, i < N →
        (chunkRespAt env.chunkResp info.file_size N i).deliveredBytes =
          (chunkLen (chunkRange info.file_size N i)).toNat) →
      (download env loc N fs).progress = info.file_size) ∧
    ((info.file_size = 0 ∨ info.supports_ranges = false) →
      ∀ b, env.simpleResp = HttpResponse.ok b →
        (download env loc N fs).progress = b.length)) := by
  constructor
  · intro hS hr hN _hok hlen
    rw [download_progress]
    have hbody : downloadBody env loc N fs =
        chunkedPath env.chunkResp (loc ++ "/" ++ info.file_name)
          info.file_size N fs := by
      rw [downloadBody, hres]
      simp only
      rw [if_neg (by simp [hS, hr])]
    rw [hbody, chunkedPath_progress, runChunks_pbar]
    have hmap : List.map (fun k =>
        (chunkRespAt env.chunkResp info.file_size N (0 + k)).deliveredBytes)
        (List.range N) = List.map
        (fun i => (chunkLen (chunkRange info.file_size N i)).toNat)
        (List.range N) := by
      apply List.map_congr_left
      intro k hk
      rw [Nat.zero_add]
      exact hlen k (List.mem_range.mp hk)
    rw [hmap, chunkLen_toNat_sum info.file_size N hN]
    omega
  · intro hfb b hsimple
    rw [download_progress]
    have hbody : downloadBody env loc N fs =
        simple_download env.simpleResp (loc ++ "/" ++ info.file_name)
          fs 0 := by
      rw [downloadBody, hres]
      simp only
      rw [if_pos hfb]
    rw [hbody, hsimple, simple_download]
    show 0 + b.length = b.length
    omega

/-- C9 witness: a 3-byte file over 2 chunks (lengths 1 and 2) ends with the
progress counter at 3; the fallback branch is vacuous at this input. -/
theorem progress_totals_witness :
    (Env.resolve ⟨some ⟨"u", "f", 3, true⟩,
        fun s _ => if s = 0 then HttpResponse.ok [7] else
          HttpResponse.ok [8, 9],
        HttpResponse.failEarly⟩ = some ⟨"u", "f", 3, true⟩) ∧
    (((3 : Nat) ≠ 0 → (true : Bool) = true → 1 ≤ 2 →
      (∀ i, i < 2 →
        (chunkRespAt (fun s _ => if s = 0 then HttpResponse.ok [7] else
          HttpResponse.ok [8, 9]) 3 2 i).isOk = true) →
      (∀ i, i < 2 →
        (chunkRespAt (fun s _ => if s = 0 then HttpResponse.ok [7] else
          HttpResponse.ok [8, 9]) 3 2 i).deliveredBytes =
          (chunkLen (chunkRange 3 2 i)).toNat) →
      (download ⟨some ⟨"u", "f", 3, true⟩,
        fun s _ => if s = 0 then HttpResponse.ok [7] else
          HttpResponse.ok [8, 9],
        HttpResponse.failEarly⟩ "d" 2 fsEmpty).progress = 3) ∧
    (((3 : Nat) = 0 ∨ (true : Bool) = false) →
      ∀ b, HttpResponse.failEarly = HttpResponse.ok b →
        (download ⟨some ⟨"u", "f", 3, true⟩,
          fun s _ => if s = 0 then HttpResponse.ok [7] else
            HttpResponse.ok [8, 9],
          HttpResponse.failEarly⟩ "d" 2 fsEmpty).progress = b.length)) :=
  ⟨rfl,
   progress_totals ⟨some ⟨"u", "f", 3, true⟩,
     fun s _ => if s = 0 then HttpResponse.ok [7] else
       HttpResponse.ok [8, 9],
     HttpResponse.failEarly⟩ "d" 2 fsEmpty ⟨"u", "f", 3, true⟩ rfl⟩

/-- C10: no exception propagates out of the top-level download call: for
every environment the call ends either complete or with a caught,
printed-and-swallowed exception — never with an uncaught one. Every
exception the body can raise (the resolution failure, the ConnectionError
raised when a chunk fails, the FileNotFoundError from the merge) is a
Python Exception and is handled by one of the two except clauses. -/
theorem download_never_raises (env : Env) (loc : String) (N : Nat)
    (fs : FS) :
    (download env loc N fs).outcome = Outcome.complete ∨
    (∃ e, (download env loc N fs).outcome = Outcome.caught e ∧
      e.isException = true) := by
  rw [download]
  cases h : (downloadBody env loc N fs).2.2 with
  | none =>
      left
      simp only [h]
  | some e =>
      right
      refine ⟨e, ?_, by cases e <;> rfl⟩
      simp only [h]
      cases e <;> rfl

/-- C10 witness: at a concrete environment whose resolution fails, the call
returns normally with a caught exception. -/
theorem download_never_raises_witness :
    (download ⟨none, fun _ _ => HttpResponse.failEarly,
        HttpResponse.failEarly⟩ "d" 2 fsEmpty).outcome =
      Outcome.complete ∨
    (∃ e, (download ⟨none, fun _ _ => HttpResponse.failEarly,
        HttpResponse.failEarly⟩ "d" 2 fsEmpty).outcome =
      Outcome.caught e ∧ e.isException = true) :=
  download_never_raises ⟨none, fun _ _ => HttpResponse.failEarly,
    HttpResponse.failEarly⟩ "d" 2 fsEmpty

end YandexCLI
